import Mathlib

/-!
Verification of the language-server lint pipeline
(`crates/oxc_language_server/src/linter.rs`).

The Rust source is shallowly embedded below.  Byte offsets, lines and
columns are `Nat`; the `as u32` casts of the source are modelled by an
explicit `% 2 ^ 32`.  Rust panics (out-of-bounds indexing, `unwrap` on a
failed plugin) are modelled by `Option`/dedicated constructors.  The rope
line index of the `ropey` crate is modelled on `List Char` with lines
separated by the newline character, following ropey's documented
`char_to_line` / `line_to_char` semantics (a char index equal to the text
length is in range; anything larger is an error).
-/

/-- An LSP position: 0-based line and character. -/
structure Position where
  line : Nat
  character : Nat
deriving DecidableEq, Repr

/-- An LSP range.  The field `stop` models the Rust field `end`
(a reserved word in Lean). -/
structure Range where
  start : Position
  stop : Position
deriving DecidableEq, Repr

/-- Rust `Ord` on natural numbers (`u32::cmp`). -/
def cmpNat (a b : Nat) : Ordering :=
  if a < b then .lt else if a = b then .eq else .gt

/-- Derived `Ord` on `Position`: lexicographic on (line, character),
as `lsp_types::Position` derives it in field order. -/
def cmpPos (a b : Position) : Ordering :=
  match cmpNat a.line b.line with
  | .eq => cmpNat a.character b.character
  | o => o

/-- Embeds `fn cmp_range(first: &Range, other: &Range) -> Ordering`:
compare starts, tie-break on ends. -/
def cmp_range (first other : Range) : Ordering :=
  match cmpPos first.start other.start with
  | .eq => cmpPos first.stop other.stop
  | o => o

/-- Char indices at which each line after the first starts:
one entry per newline character, pointing just past it.
`i` is the index of the first character of the remaining list. -/
def lineStartsAux : List Char → Nat → List Nat
  | [], _ => []
  | c :: rest, i =>
    if c = '\n' then (i + 1) :: lineStartsAux rest (i + 1)
    else lineStartsAux rest (i + 1)

/-- Start char index of every line of the text (the rope's line index).
Line 0 always starts at 0. -/
def lineStarts (s : List Char) : List Nat := 0 :: lineStartsAux s 0

/-- Index of the line containing char index `offset`, given the list of
line starts: the last line whose start is not past `offset`
(ropey `char_to_line`). -/
def lineIdxOf (offset : Nat) : List Nat → Nat
  | [] => 0
  | [_] => 0
  | _ :: b :: rest => if offset < b then 0 else lineIdxOf offset (b :: rest) + 1

/-- Embeds `fn offset_to_position(offset: usize, source_text: &str) ->
Option<Position>`: `rope.try_char_to_line` fails exactly when the offset
exceeds the text length; the line's first char index is looked up with
`try_line_to_char`; the final `as u32` casts truncate mod `2 ^ 32`. -/
def offset_to_position (offset : Nat) (source_text : List Char) : Option Position :=
  if source_text.length < offset then none
  else
    let starts := lineStarts source_text
    let line := lineIdxOf offset starts
    match starts[line]? with
    | none => none
    | some first_char_of_line =>
      some ⟨line % 2 ^ 32, (offset - first_char_of_line) % 2 ^ 32⟩

/-- A miette labeled span: byte offset, length, optional label text. -/
structure LabeledSpan where
  offset : Nat
  len : Nat
  label : Option String
deriving DecidableEq, Repr

/-- miette's severity levels. -/
inductive MietteSeverity where
  | advice
  | warning
  | error
deriving DecidableEq, Repr

/-- A miette `Error` as the linter uses it: display message, optional
help text, optional severity, labeled spans (`error.labels()` yielding
`None` and yielding an empty iterator both model as `[]`). -/
structure Err where
  message : String
  help : Option String
  severity : Option MietteSeverity
  labels : List LabeledSpan
deriving DecidableEq, Repr

/-- Embeds `struct FixedContent { code, range }`. -/
structure FixedContent where
  code : String
  range : Range
deriving DecidableEq, Repr

/-- Embeds `struct LabeledSpanWithPosition`. -/
structure LabeledSpanWithPosition where
  start_pos : Position
  end_pos : Position
  message : Option String
deriving DecidableEq, Repr

/-- Embeds `struct ErrorWithPosition`. -/
structure ErrorWithPosition where
  start_pos : Position
  end_pos : Position
  miette_err : Err
  fixed_content : Option FixedContent
  labels_with_pos : List LabeledSpanWithPosition
deriving DecidableEq, Repr

/-- One element of the mapping closure in `ErrorWithPosition::new`:
map both ends of a labeled span, substituting the default position on
mapping failure (`unwrap_or_default`). -/
def mapLabel (text : List Char) (l : LabeledSpan) : LabeledSpanWithPosition :=
  { start_pos := (offset_to_position l.offset text).getD ⟨0, 0⟩
  , end_pos := (offset_to_position (l.offset + l.len) text).getD ⟨0, 0⟩
  , message := l.label }

/-- Embeds `ErrorWithPosition::new`.  The source indexes
`labels_with_pos[0]` and `labels_with_pos[len - 1]`, which panics on an
empty label list; the panic is modelled by `none`. -/
def ErrorWithPosition.new (error : Err) (text : List Char)
    (fixed_content : Option FixedContent) : Option ErrorWithPosition :=
  let labels_with_pos := error.labels.map (mapLabel text)
  match labels_with_pos with
  | [] => none
  | x :: xs =>
    some { start_pos := x.start_pos
         , end_pos := ((x :: xs).getLastD x).end_pos
         , miette_err := error
         , fixed_content := fixed_content
         , labels_with_pos := x :: xs }

/-- LSP diagnostic severities used by the source. -/
inductive DiagnosticSeverity where
  | error
  | warning
  | information
  | hint
deriving DecidableEq, Repr

/-- An LSP location; the uri is modelled as the path string. -/
structure Location where
  uri : String
  range : Range
deriving DecidableEq, Repr

/-- Embeds `lsp_types::DiagnosticRelatedInformation`. -/
structure DiagnosticRelatedInformation where
  location : Location
  message : String
deriving DecidableEq, Repr

/-- The fields of `lsp_types::Diagnostic` the source ever sets to a
non-constant value (`code`, `code_description`, `tags`, `data` are
always `None` in the source and are omitted). -/
structure Diagnostic where
  range : Range
  severity : Option DiagnosticSeverity
  message : String
  source : Option String
  related_information : Option (List DiagnosticRelatedInformation)
deriving DecidableEq, Repr

/-- `u32::MAX`, the initial `ret_range` components of the primary-range
fold in `to_lsp_diagnostic`. -/
def u32Max : Nat := 2 ^ 32 - 1

/-- The initial `ret_range` of the primary-range fold: all components
`u32::MAX`. -/
def maxRange : Range :=
  { start := { line := u32Max, character := u32Max }
  , stop := { line := u32Max, character := u32Max } }

/-- Embeds `ErrorWithPosition::to_lsp_diagnostic`.  The related
information is built from every positioned label; the primary range is
the fold of `cmp_range` minimisation over it starting from the
`u32::MAX` sentinel range; the message appends the help text on a new
line when present. -/
def ErrorWithPosition.to_lsp_diagnostic (e : ErrorWithPosition) (path : String) :
    Diagnostic :=
  let severity : Option DiagnosticSeverity :=
    match e.miette_err.severity with
    | some .error => some .error
    | _ => some .warning
  let related_information : List DiagnosticRelatedInformation :=
    e.labels_with_pos.map (fun labeled_span =>
      { location := { uri := path
                    , range := { start := labeled_span.start_pos
                               , stop := labeled_span.end_pos } }
      , message := labeled_span.message.getD "" })
  let range : Range :=
    related_information.foldl
      (fun ret_range info =>
        if cmp_range ret_range info.location.range = .gt then info.location.range
        else ret_range)
      maxRange
  let message : String :=
    match e.miette_err.help with
    | none => e.miette_err.message
    | some help => e.miette_err.message ++ "\nhelp: " ++ help
  { range := range
  , severity := severity
  , message := message
  , source := some "oxc"
  , related_information := some related_information }

/-- Embeds `struct DiagnosticReport`. -/
structure DiagnosticReport where
  diagnostic : Diagnostic
  fixed_content : Option FixedContent
deriving DecidableEq, Repr

/-- Embeds `ErrorWithPosition::into_diagnostic_report`. -/
def ErrorWithPosition.into_diagnostic_report (e : ErrorWithPosition)
    (path : String) : DiagnosticReport :=
  { diagnostic := e.to_lsp_diagnostic path, fixed_content := e.fixed_content }

/-- Embeds `struct ErrorReport`. -/
structure ErrorReport where
  error : Err
  fixed_content : Option FixedContent
deriving DecidableEq, Repr

/-- A path, pre-split into name and extension
(`Path::extension`). -/
structure PathModel where
  name : String
  ext : Option String
deriving DecidableEq, Repr

/-- Modelled from the spec: `VALID_EXTENSIONS` of `oxc_span` (external
to the embedded file), the native dialect extensions. -/
def validExtensions : List String :=
  ["js", "mjs", "cjs", "jsx", "ts", "mts", "cts", "tsx"]

/-- Modelled from the spec: `LINT_PARTIAL_LOADER_EXT` of `oxc_linter`
(external to the embedded file); the only loader the embedded file
dispatches to is the Vue loader. -/
def loaderExtensions : List String := ["vue"]

/-- Embeds `fn get_extensions()`: native extensions chained with the
loader extensions. -/
def get_extensions : List String := validExtensions ++ loaderExtensions

/-- Embeds `IsolatedLintHandler::is_wanted_ext`. -/
def is_wanted_ext (path : PathModel) : Bool :=
  match path.ext with
  | none => false
  | some e => get_extensions.contains e

/-- An `oxc_linter` message: the rule-violation error plus its optional
fix (replacement text and byte span); named `RuleFix` because Lean's
library already declares `Fix`. -/
structure RuleFix where
  content : String
  start : Nat
  stop : Nat
deriving DecidableEq, Repr

/-- One rule-engine result message. -/
structure Msg where
  error : Err
  fix : Option RuleFix
deriving DecidableEq, Repr

/-- The per-file behaviour of the external collaborators
(parser, semantic builder, plugin, rule engine), fixed so that
`lint_path` becomes a pure function of it.  `sourceText` is the text
the pipeline analyses (the disk/override content, after any loader
extraction). -/
structure FileModel where
  path : PathModel
  sourceText : List Char
  parseErrors : List Err
  semanticErrors : List Err
  pluginConfigured : Bool
  pluginOk : Bool
  lintResult : List Msg
  fixMode : Bool
deriving Repr

/-- Embeds `IsolatedLintHandler::get_source_type_and_text`:
`SourceType::from_path` succeeds on the native extensions; otherwise the
Vue loader handles the `vue` extension; otherwise the file is not
analyzable. -/
def get_source_type_and_text (m : FileModel) : Option (List Char) :=
  if (match m.path.ext with
      | some e => validExtensions.contains e
      | none => false) then
    some m.sourceText
  else
    match m.path.ext with
    | none => none
    | some e => if e = "vue" then some m.sourceText else none

/-- Sequential wrapping of reports by `ErrorWithPosition::new`; a panic
of any `new` (empty label list) is the panic of the whole call. -/
def wrapAll (text : List Char) : List ErrorReport → Option (List ErrorWithPosition)
  | [] => some []
  | r :: rest =>
    match ErrorWithPosition.new r.error text r.fixed_content, wrapAll text rest with
    | some e, some es => some (e :: es)
    | _, _ => none

/-- Embeds `IsolatedLintHandler::wrap_diagnostics`. -/
def wrap_diagnostics (path : PathModel) (source_text : List Char)
    (reports : List ErrorReport) : Option (PathModel × List ErrorWithPosition) :=
  (wrapAll source_text reports).map (fun ds => (path, ds))

/-- Outcome of `lint_path`: a Rust panic, the `None` return
(not analyzable, or zero findings), or a `Some` result. -/
inductive LintResult where
  | panicked
  | skip
  | ok (res : PathModel × List ErrorWithPosition)
deriving DecidableEq, Repr

/-- Lifts a `wrap_diagnostics` outcome into a `LintResult`: the panic
of a failed wrap propagates. -/
def wrapResult : Option (PathModel × List ErrorWithPosition) → LintResult
  | none => .panicked
  | some r => .ok r

/-- Which pipeline stages executed during `lint_path`; recorded to state
short-circuiting claims. -/
structure LintTrace where
  semanticBuilt : Bool
  pluginInvoked : Bool
  rulesRun : Bool
deriving DecidableEq, Repr

/-- Embeds `IsolatedLintHandler::lint_path`, with the executed stages
recorded alongside the result.  Parse errors are wrapped with no fix
before the semantic build; semantic errors likewise before the plugin;
a configured failing plugin is an `unwrap` panic; an empty rule-engine
result returns `None`; otherwise the messages are wrapped, with their
fixes translated to display ranges exactly when fix mode is on. -/
def lint_path (m : FileModel) : LintResult × LintTrace :=
  match get_source_type_and_text m with
  | none => (.skip, ⟨false, false, false⟩)
  | some source_text =>
    if m.parseErrors ≠ [] then
      (wrapResult (wrap_diagnostics m.path source_text
          (m.parseErrors.map (fun e => ⟨e, none⟩))),
       ⟨false, false, false⟩)
    else if m.semanticErrors ≠ [] then
      (wrapResult (wrap_diagnostics m.path source_text
          (m.semanticErrors.map (fun e => ⟨e, none⟩))),
       ⟨true, false, false⟩)
    else if m.pluginConfigured && !m.pluginOk then
      (.panicked, ⟨true, true, false⟩)
    else if m.lintResult = [] then
      (.skip, ⟨true, m.pluginConfigured, true⟩)
    else if m.fixMode then
      (wrapResult (wrap_diagnostics m.path source_text
          (m.lintResult.map (fun msg =>
            ⟨msg.error, msg.fix.map (fun f =>
              { code := f.content
              , range := { start := (offset_to_position f.start source_text).getD ⟨0, 0⟩
                         , stop := (offset_to_position f.stop source_text).getD ⟨0, 0⟩ } })⟩))),
       ⟨true, m.pluginConfigured, true⟩)
    else
      (wrapResult (wrap_diagnostics m.path source_text
          (m.lintResult.map (fun msg => ⟨msg.error, none⟩))),
       ⟨true, m.pluginConfigured, true⟩)

/-- The inverted-hint synthesis of `run_single` for one diagnostic:
for every related entry whose range differs from the primary range,
a hint-severity diagnostic at that range whose single related entry
points back at the primary range. -/
def invertedFor (path : String) (d : Diagnostic) : List DiagnosticReport :=
  match d.related_information with
  | none => []
  | some infos =>
    let related_information : Option (List DiagnosticRelatedInformation) :=
      some [{ location := { uri := path, range := d.range }
            , message := "original diagnostic" }]
    (infos.filter (fun r => decide (r.location.range ≠ d.range))).map (fun r =>
      { diagnostic :=
          { range := r.location.range
          , severity := some DiagnosticSeverity.hint
          , message := r.message
          , source := some "oxc"
          , related_information := related_information }
      , fixed_content := none })

/-- Outcome of `run_single`: a Rust panic, the `None` sentinel for an
unwanted extension, or a `Some` report list. -/
inductive SingleOutcome where
  | panicked
  | none
  | ok (reports : List DiagnosticReport)
deriving DecidableEq, Repr

/-- Embeds `IsolatedLintHandler::run_single`: unwanted extension gives
the `None` sentinel; a `None` from `lint_path` gives an empty list;
otherwise the per-error reports followed by all inverted hints. -/
def run_single (m : FileModel) : SingleOutcome :=
  if is_wanted_ext m.path then
    match (lint_path m).1 with
    | .panicked => .panicked
    | .skip => .ok []
    | .ok (p, errors) =>
      let diagnostics := errors.map (fun e => e.into_diagnostic_report p.name)
      .ok (diagnostics ++ diagnostics.flatMap (fun d => invertedFor m.path.name d.diagnostic))
  else
    .none

/-- `LintResult.toOption`: the `Option` the Rust function actually
returns (panics excluded). -/
def LintResult.toOption : LintResult → Option (PathModel × List ErrorWithPosition)
  | .panicked => Option.none
  | .skip => Option.none
  | .ok r => some r

/-- Whether a `lint_path` outcome is a panic. -/
def LintResult.isPanicked : LintResult → Bool
  | .panicked => true
  | _ => false

/-- Embeds `IsolatedLintHandler::process_paths` over a discovered file
list: every worker's `Some` result is collected; a worker panic aborts
the scan (modelled as `none`).  The Rust result order is completion
order; the model fixes discovery order, which the content claims below
do not depend on. -/
def process_paths (files : List FileModel) :
    Option (List (PathModel × List ErrorWithPosition)) :=
  if files.any (fun m => ((lint_path m).1).isPanicked) then none
  else some (files.filterMap (fun m => ((lint_path m).1).toOption))

/-- Embeds `IsolatedLintHandler::process_diagnostics`: each received
pair is mapped through `into_diagnostic_report`; nothing else is added. -/
def process_diagnostics (entries : List (PathModel × List ErrorWithPosition)) :
    List (PathModel × List DiagnosticReport) :=
  entries.map (fun pe =>
    (pe.1, pe.2.map (fun e => e.into_diagnostic_report pe.1.name)))

/-- Embeds `IsolatedLintHandler::run_full`: process the discovered
paths, then translate every file's errors. -/
def run_full (files : List FileModel) :
    Option (List (PathModel × List DiagnosticReport)) :=
  (process_paths files).map process_diagnostics

/-- Strict lexicographic order on ranges by
(start line, start column, end line, end column); the order `cmp_range`
decides. -/
def rangeLtProp (a b : Range) : Prop :=
  a.start.line < b.start.line ∨
    (a.start.line = b.start.line ∧
      (a.start.character < b.start.character ∨
        (a.start.character = b.start.character ∧
          (a.stop.line < b.stop.line ∨
            (a.stop.line = b.stop.line ∧ a.stop.character < b.stop.character)))))

/-! ### Concrete inputs used by witnesses and counterexamples -/

/-- A finding with two labeled spans whose mapped ranges are in
descending order, so the primary-range fold has to pick the second. -/
def errC1 : Err :=
  { message := "m", help := none, severity := some .error
  , labels := [⟨3, 1, none⟩, ⟨0, 1, none⟩] }

/-- Two-line text `ab\ncd`. -/
def textC1 : List Char := ['a', 'b', '\n', 'c', 'd']

/-- The positioned translation of `errC1` over `textC1`. -/
def eC1 : ErrorWithPosition :=
  { start_pos := ⟨1, 0⟩, end_pos := ⟨0, 1⟩, miette_err := errC1
  , fixed_content := none
  , labels_with_pos := [⟨⟨1, 0⟩, ⟨1, 1⟩, none⟩, ⟨⟨0, 0⟩, ⟨0, 1⟩, none⟩] }

/-- A finding with help text. -/
def errC9 : Err :=
  { message := "bad", help := some "try", severity := none
  , labels := [⟨0, 1, none⟩] }

/-- A positioned diagnostic whose finding is `errC9`. -/
def eC9 : ErrorWithPosition :=
  { start_pos := ⟨0, 0⟩, end_pos := ⟨0, 1⟩, miette_err := errC9
  , fixed_content := none
  , labels_with_pos := [⟨⟨0, 0⟩, ⟨0, 1⟩, none⟩] }

/-- A finding with zero labeled spans. -/
def errC10 : Err :=
  { message := "no labels", help := none, severity := none, labels := [] }

/-- The related information of `eC1.to_lsp_diagnostic "a.js"`. -/
def infosC2 : List DiagnosticRelatedInformation :=
  [ { location := { uri := "a.js", range := ⟨⟨1, 0⟩, ⟨1, 1⟩⟩ }, message := "" }
  , { location := { uri := "a.js", range := ⟨⟨0, 0⟩, ⟨0, 1⟩⟩ }, message := "" } ]

/-- A labeled span whose offset is past the end of the empty text. -/
def spanC4 : LabeledSpan := ⟨5, 1, none⟩

/-- A finding whose only label is out of range. -/
def errC4 : Err :=
  { message := "x", help := none, severity := none, labels := [spanC4] }

/-- A text of `2 ^ 32 + 1` identical characters, exhibiting the
`as u32` truncation of `offset_to_position`. -/
def textHuge : List Char := List.replicate (2 ^ 32 + 1) 'a'

/-- Two-line text `x\ny`. -/
def textC5 : List Char := ['x', '\n', 'y']

/-- The no-panic precondition of the pipeline: every finding any stage
can emit has at least one labeled span (the documented invariant on
`RawFinding`s), and a configured plugin succeeds. -/
def wellFormed (m : FileModel) : Prop :=
  (∀ e ∈ m.parseErrors, e.labels ≠ []) ∧
  (∀ e ∈ m.semanticErrors, e.labels ≠ []) ∧
  (∀ msg ∈ m.lintResult, msg.error.labels ≠ []) ∧
  (m.pluginConfigured = true → m.pluginOk = true)

instance (m : FileModel) : Decidable (wellFormed m) := by
  unfold wellFormed
  infer_instance

/-- Three-line text `aaaa\nbbbb\ncc`. -/
def textC6 : List Char :=
  ['a', 'a', 'a', 'a', '\n', 'b', 'b', 'b', 'b', '\n', 'c', 'c']

/-- A parse error at byte offset 10 of `textC6`. -/
def errParse : Err :=
  { message := "Unexpected token", help := none, severity := some .error
  , labels := [⟨10, 1, none⟩] }

/-- A supported file whose parse yields exactly one error. -/
def fileC6 : FileModel :=
  { path := ⟨"a.js", some "js"⟩, sourceText := textC6
  , parseErrors := [errParse], semanticErrors := []
  , pluginConfigured := false, pluginOk := true
  , lintResult := [], fixMode := true }

/-- A supported file whose only finding (`errC1`) has two labels with
distinct mapped ranges, so an inverted hint would be derived from it. -/
def fileC3 : FileModel :=
  { path := ⟨"b.js", some "js"⟩, sourceText := textC1
  , parseErrors := [errC1], semanticErrors := []
  , pluginConfigured := false, pluginOk := true
  , lintResult := [], fixMode := true }

/-- The translated diagnostic the whole-project scan produces for
`fileC3`. -/
def reportC3 : DiagnosticReport :=
  { diagnostic :=
      { range := ⟨⟨0, 0⟩, ⟨0, 1⟩⟩
      , severity := some .error
      , message := "m"
      , source := some "oxc"
      , related_information := some
          [ { location := { uri := "b.js", range := ⟨⟨1, 0⟩, ⟨1, 1⟩⟩ }, message := "" }
          , { location := { uri := "b.js", range := ⟨⟨0, 0⟩, ⟨0, 1⟩⟩ }, message := "" } ] }
  , fixed_content := none }

/-- The whole-project scan output for the one-file project `fileC6`. -/
def outC7 : List (PathModel × List DiagnosticReport) :=
  [ (⟨"a.js", some "js"⟩,
     [ { diagnostic :=
           { range := ⟨⟨2, 0⟩, ⟨2, 1⟩⟩
           , severity := some .error
           , message := "Unexpected token"
           , source := some "oxc"
           , related_information := some
               [ { location := { uri := "a.js", range := ⟨⟨2, 0⟩, ⟨2, 1⟩⟩ }
                 , message := "" } ] }
       , fixed_content := none } ]) ]

/-! ### Order lemmas for `cmp_range` -/

theorem cmpNat_lt_iff {a b : Nat} : cmpNat a b = .lt ↔ a < b := by
  unfold cmpNat
  split <;> rename_i h
  · simp [h]
  · split <;> simp <;> omega

theorem cmpNat_eq_iff {a b : Nat} : cmpNat a b = .eq ↔ a = b := by
  unfold cmpNat
  split <;> rename_i h
  · simp; omega
  · split <;> simp <;> omega

theorem cmpNat_gt_iff {a b : Nat} : cmpNat a b = .gt ↔ b < a := by
  unfold cmpNat
  split <;> rename_i h
  · simp; omega
  · split <;> simp <;> omega

theorem cmpPos_lt_iff {a b : Position} :
    cmpPos a b = .lt ↔
      (a.line < b.line ∨ (a.line = b.line ∧ a.character < b.character)) := by
  unfold cmpPos
  cases h : cmpNat a.line b.line
  · have := cmpNat_lt_iff.mp h; simp; omega
  · have := cmpNat_eq_iff.mp h; rw [cmpNat_lt_iff]; omega
  · have := cmpNat_gt_iff.mp h; simp; omega

theorem cmpPos_eq_iff {a b : Position} : cmpPos a b = .eq ↔ a = b := by
  obtain ⟨al, ac⟩ := a; obtain ⟨bl, bc⟩ := b
  unfold cmpPos
  cases h : cmpNat al bl
  · have := cmpNat_lt_iff.mp h; simp; omega
  · have := cmpNat_eq_iff.mp h; rw [cmpNat_eq_iff]; simp; omega
  · have := cmpNat_gt_iff.mp h; simp; omega

theorem cmpPos_gt_iff {a b : Position} :
    cmpPos a b = .gt ↔
      (b.line < a.line ∨ (b.line = a.line ∧ b.character < a.character)) := by
  unfold cmpPos
  cases h : cmpNat a.line b.line
  · have := cmpNat_lt_iff.mp h; simp; omega
  · have := cmpNat_eq_iff.mp h; rw [cmpNat_gt_iff]; omega
  · have := cmpNat_gt_iff.mp h; simp; omega

theorem cmp_range_lt_iff {a b : Range} :
    cmp_range a b = .lt ↔ rangeLtProp a b := by
  unfold cmp_range rangeLtProp
  cases h : cmpPos a.start b.start
  · have := cmpPos_lt_iff.mp h; simp; omega
  · have h1 := cmpPos_eq_iff.mp h
    have h2 : a.start.line = b.start.line := by rw [h1]
    have h3 : a.start.character = b.start.character := by rw [h1]
    rw [cmpPos_lt_iff]; omega
  · have := cmpPos_gt_iff.mp h; simp; omega

theorem cmp_range_gt_iff {a b : Range} :
    cmp_range a b = .gt ↔ rangeLtProp b a := by
  unfold cmp_range rangeLtProp
  cases h : cmpPos a.start b.start
  · have := cmpPos_lt_iff.mp h; simp; omega
  · have h1 := cmpPos_eq_iff.mp h
    have h2 : a.start.line = b.start.line := by rw [h1]
    have h3 : a.start.character = b.start.character := by rw [h1]
    rw [cmpPos_gt_iff]; omega
  · have := cmpPos_gt_iff.mp h; simp; omega

theorem cmp_range_eq_iff {a b : Range} : cmp_range a b = .eq ↔ a = b := by
  obtain ⟨⟨a1, a2⟩, ⟨a3, a4⟩⟩ := a; obtain ⟨⟨b1, b2⟩, ⟨b3, b4⟩⟩ := b
  unfold cmp_range
  cases h : cmpPos ⟨a1, a2⟩ ⟨b1, b2⟩
  · have := cmpPos_lt_iff.mp h; simp at this ⊢; omega
  · have h1 := cmpPos_eq_iff.mp h
    rw [cmpPos_eq_iff]
    simp at h1 ⊢
    omega
  · have := cmpPos_gt_iff.mp h; simp at this ⊢; omega

theorem cmp_range_ne_gt_iff {a b : Range} :
    cmp_range a b ≠ .gt ↔ ¬ rangeLtProp b a :=
  not_congr cmp_range_gt_iff

theorem rangeLE_refl (a : Range) : cmp_range a a ≠ .gt := by
  rw [cmp_range_ne_gt_iff]; unfold rangeLtProp; omega

theorem rangeLE_trans {a b c : Range} (h1 : cmp_range a b ≠ .gt)
    (h2 : cmp_range b c ≠ .gt) : cmp_range a c ≠ .gt := by
  rw [cmp_range_ne_gt_iff] at h1 h2 ⊢
  unfold rangeLtProp at h1 h2 ⊢
  omega

theorem rangeLE_of_gt {a b : Range} (h : cmp_range a b = .gt) :
    cmp_range b a ≠ .gt := by
  rw [cmp_range_gt_iff] at h
  rw [cmp_range_ne_gt_iff]
  unfold rangeLtProp at h ⊢
  omega

theorem rangeLE_antisymm {a b : Range} (h1 : cmp_range a b ≠ .gt)
    (h2 : cmp_range b a ≠ .gt) : a = b := by
  rw [cmp_range_ne_gt_iff] at h1 h2
  unfold rangeLtProp at h1 h2
  obtain ⟨⟨a1, a2⟩, ⟨a3, a4⟩⟩ := a; obtain ⟨⟨b1, b2⟩, ⟨b3, b4⟩⟩ := b
  simp_all
  omega

/-- Any range whose components are below `2 ^ 32` is at most the
`u32::MAX` sentinel range in the `cmp_range` order. -/
theorem rangeLE_maxRange {r : Range} (h1 : r.start.line < 2 ^ 32)
    (h2 : r.start.character < 2 ^ 32) (h3 : r.stop.line < 2 ^ 32)
    (h4 : r.stop.character < 2 ^ 32) : cmp_range r maxRange ≠ .gt := by
  rw [cmp_range_ne_gt_iff]
  unfold rangeLtProp maxRange u32Max
  simp
  omega

/-! ### The primary-range fold computes the lexicographic minimum -/

theorem foldl_min_mem (l : List Range) (init : Range) :
    l.foldl (fun s r => if cmp_range s r = .gt then r else s) init = init ∨
      l.foldl (fun s r => if cmp_range s r = .gt then r else s) init ∈ l := by
  induction l generalizing init with
  | nil => left; rfl
  | cons a l ih =>
    simp only [List.foldl_cons]
    rcases ih (if cmp_range init a = .gt then a else init) with h | h
    · rw [h]
      split
      · right; exact List.mem_cons_self a l
      · left; rfl
    · right; exact List.mem_cons_of_mem a h

theorem foldl_min_le (l : List Range) (init : Range) :
    cmp_range (l.foldl (fun s r => if cmp_range s r = .gt then r else s) init)
        init ≠ .gt ∧
      ∀ r ∈ l,
        cmp_range (l.foldl (fun s r => if cmp_range s r = .gt then r else s) init)
          r ≠ .gt := by
  induction l generalizing init with
  | nil => exact ⟨rangeLE_refl init, by simp⟩
  | cons a l ih =>
    simp only [List.foldl_cons]
    have hstep : cmp_range (if cmp_range init a = .gt then a else init) init ≠ .gt := by
      split
      · exact rangeLE_of_gt (by assumption)
      · exact rangeLE_refl init
    have hstepa : cmp_range (if cmp_range init a = .gt then a else init) a ≠ .gt := by
      split
      · exact rangeLE_refl a
      · rename_i hng; exact hng
    obtain ⟨h1, h2⟩ := ih (if cmp_range init a = .gt then a else init)
    refine ⟨rangeLE_trans h1 hstep, ?_⟩
    intro r hr
    rcases List.mem_cons.mp hr with rfl | hr
    · exact rangeLE_trans h1 hstepa
    · exact h2 r hr

/-! ### Bounds on mapped positions -/

theorem offset_to_position_bound {o : Nat} {t : List Char} {p : Position}
    (h : offset_to_position o t = some p) :
    p.line < 2 ^ 32 ∧ p.character < 2 ^ 32 := by
  unfold offset_to_position at h
  split at h
  · simp at h
  · cases hg : (lineStarts t)[lineIdxOf o (lineStarts t)]? with
    | none => simp [hg] at h
    | some fc =>
      simp only [hg, Option.some.injEq] at h
      subst h
      exact ⟨Nat.mod_lt _ (by norm_num), Nat.mod_lt _ (by norm_num)⟩

theorem getD_offset_to_position_bound (o : Nat) (t : List Char) :
    ((offset_to_position o t).getD ⟨0, 0⟩).line < 2 ^ 32 ∧
      ((offset_to_position o t).getD ⟨0, 0⟩).character < 2 ^ 32 := by
  cases h : offset_to_position o t with
  | none => simp
  | some p => simpa using offset_to_position_bound h

theorem mapLabel_bound (t : List Char) (l : LabeledSpan) :
    (mapLabel t l).start_pos.line < 2 ^ 32 ∧
      (mapLabel t l).start_pos.character < 2 ^ 32 ∧
      (mapLabel t l).end_pos.line < 2 ^ 32 ∧
      (mapLabel t l).end_pos.character < 2 ^ 32 :=
  ⟨(getD_offset_to_position_bound _ _).1, (getD_offset_to_position_bound _ _).2,
   (getD_offset_to_position_bound _ _).1, (getD_offset_to_position_bound _ _).2⟩

/-- What a successful `ErrorWithPosition::new` contains. -/
theorem new_some_spec {error : Err} {text : List Char} {fc : Option FixedContent}
    {e : ErrorWithPosition} (h : ErrorWithPosition.new error text fc = some e) :
    e.miette_err = error ∧ e.fixed_content = fc ∧
      e.labels_with_pos = error.labels.map (mapLabel text) ∧
      e.labels_with_pos ≠ [] := by
  simp only [ErrorWithPosition.new] at h
  cases hm : error.labels.map (mapLabel text) with
  | nil => rw [hm] at h; simp at h
  | cons x xs =>
    rw [hm] at h
    simp only [Option.some.injEq] at h
    subst h
    simp

theorem to_lsp_diagnostic_range (e : ErrorWithPosition) (path : String) :
    (e.to_lsp_diagnostic path).range =
      (e.labels_with_pos.map (fun l => Range.mk l.start_pos l.end_pos)).foldl
        (fun s r => if cmp_range s r = .gt then r else s) maxRange := by
  simp only [ErrorWithPosition.to_lsp_diagnostic, List.foldl_map]

/-- C1: for every translated diagnostic built from a finding with at
least one labeled span, the displayed primary range is the
lexicographic minimum under (start line, start column, end line, end
column) of the mapped ranges of all labeled spans: it is one of those
ranges and `cmp_range`-below every one of them. -/
theorem primary_range_is_lex_min (error : Err) (text : List Char)
    (fc : Option FixedContent) (e : ErrorWithPosition) (path : String)
    (h : ErrorWithPosition.new error text fc = some e) :
    (e.to_lsp_diagnostic path).range ∈
        e.labels_with_pos.map (fun l => Range.mk l.start_pos l.end_pos) ∧
      ∀ r ∈ e.labels_with_pos.map (fun l => Range.mk l.start_pos l.end_pos),
        cmp_range ((e.to_lsp_diagnostic path).range) r ≠ .gt := by
  obtain ⟨-, -, hlabels, hne⟩ := new_some_spec h
  have hb : ∀ r ∈ e.labels_with_pos.map (fun l => Range.mk l.start_pos l.end_pos),
      cmp_range r maxRange ≠ .gt := by
    intro r hr
    obtain ⟨l, hl, rfl⟩ := List.mem_map.mp hr
    rw [hlabels] at hl
    obtain ⟨sp, hsp, rfl⟩ := List.mem_map.mp hl
    have hbnd := mapLabel_bound text sp
    exact rangeLE_maxRange hbnd.1 hbnd.2.1 hbnd.2.2.1 hbnd.2.2.2
  have hrange := to_lsp_diagnostic_range e path
  obtain ⟨hinit, hmem⟩ :=
    foldl_min_le (e.labels_with_pos.map (fun l => Range.mk l.start_pos l.end_pos)) maxRange
  have hminmem :=
    foldl_min_mem (e.labels_with_pos.map (fun l => Range.mk l.start_pos l.end_pos)) maxRange
  rw [hrange]
  refine ⟨?_, hmem⟩
  rcases hminmem with heq | hmem2
  · obtain ⟨l0, hl0⟩ := List.exists_mem_of_ne_nil _ hne
    have hr0 : Range.mk l0.start_pos l0.end_pos ∈
        e.labels_with_pos.map (fun l => Range.mk l.start_pos l.end_pos) :=
      List.mem_map_of_mem _ hl0
    have h1 := hmem _ hr0
    rw [heq] at h1
    have h2 := hb _ hr0
    have h3 : Range.mk l0.start_pos l0.end_pos = maxRange := rangeLE_antisymm h2 h1
    rw [heq, ← h3]
    exact hr0
  · exact hmem2

/-- Witness for C1 at `errC1` over `textC1`. -/
theorem primary_range_is_lex_min_witness :
    ErrorWithPosition.new errC1 textC1 none = some eC1 ∧
      ((eC1.to_lsp_diagnostic "a.js").range ∈
          eC1.labels_with_pos.map (fun l => Range.mk l.start_pos l.end_pos) ∧
        ∀ r ∈ eC1.labels_with_pos.map (fun l => Range.mk l.start_pos l.end_pos),
          cmp_range ((eC1.to_lsp_diagnostic "a.js").range) r ≠ .gt) :=
  ⟨by decide, primary_range_is_lex_min errC1 textC1 none eC1 "a.js" (by decide)⟩

/-- C9: the display message of a translated diagnostic is the main
message alone when no help text is present, and the main message
followed, on a new line, by the rendered help line when help text is
present. -/
theorem message_assembly (e : ErrorWithPosition) (path : String) :
    (e.miette_err.help = none →
      (e.to_lsp_diagnostic path).message = e.miette_err.message) ∧
    ∀ h, e.miette_err.help = some h →
      (e.to_lsp_diagnostic path).message = e.miette_err.message ++ "\nhelp: " ++ h := by
  constructor
  · intro hh
    simp [ErrorWithPosition.to_lsp_diagnostic, hh]
  · intro h hh
    simp [ErrorWithPosition.to_lsp_diagnostic, hh]

/-- Witness for C9 at `eC9`, whose help text is present. -/
theorem message_assembly_witness :
    eC9.miette_err.help = some "try" ∧
      (eC9.to_lsp_diagnostic "f.js").message =
        eC9.miette_err.message ++ "\nhelp: " ++ "try" :=
  ⟨rfl, (message_assembly eC9 "f.js").2 "try" rfl⟩

/-- C10: translating a finding into a positioned diagnostic is total
only under the precondition of at least one labeled span: with zero
labels `ErrorWithPosition::new` panics (the `labels_with_pos[0]` index
is out of bounds; modelled as `none`), and with at least one label the
first/last-label indexing is in bounds and the translation succeeds. -/
theorem new_requires_labels (error : Err) (text : List Char)
    (fc : Option FixedContent) :
    (error.labels = [] → ErrorWithPosition.new error text fc = none) ∧
    (error.labels ≠ [] → (ErrorWithPosition.new error text fc).isSome = true) := by
  constructor
  · intro h
    simp [ErrorWithPosition.new, h]
  · intro h
    simp only [ErrorWithPosition.new]
    cases hm : error.labels.map (mapLabel text) with
    | nil => exact absurd (List.map_eq_nil_iff.mp hm) h
    | cons x xs => simp [hm]

/-- Witness for C10 at `errC10`, which has zero labels. -/
theorem new_requires_labels_witness :
    errC10.labels = [] ∧ ErrorWithPosition.new errC10 [] none = none :=
  ⟨rfl, (new_requires_labels errC10 [] none).1 rfl⟩

/-- C2: for every diagnostic with primary range `d.range` and related
entries `infos`, the synthesized inverted hints number exactly the
related entries whose range differs from the primary range; each hint
sits at such a related range, has hint severity, carries no fix, and
has exactly one related entry pointing back at the primary range with
message "original diagnostic". -/
theorem inverted_hints_spec (path : String) (d : Diagnostic)
    (infos : List DiagnosticRelatedInformation)
    (h : d.related_information = some infos) :
    (invertedFor path d).length =
        infos.countP (fun r => decide (r.location.range ≠ d.range)) ∧
      ∀ hint ∈ invertedFor path d,
        hint.diagnostic.severity = some DiagnosticSeverity.hint ∧
        hint.fixed_content = none ∧
        hint.diagnostic.related_information =
          some [{ location := { uri := path, range := d.range }
                , message := "original diagnostic" }] ∧
        ∃ r ∈ infos, r.location.range ≠ d.range ∧
          hint.diagnostic.range = r.location.range ∧
          hint.diagnostic.message = r.message := by
  have hd : invertedFor path d =
      (infos.filter (fun r => decide (r.location.range ≠ d.range))).map (fun r =>
        { diagnostic :=
            { range := r.location.range
            , severity := some DiagnosticSeverity.hint
            , message := r.message
            , source := some "oxc"
            , related_information :=
                some [{ location := { uri := path, range := d.range }
                      , message := "original diagnostic" }] }
        , fixed_content := none }) := by
    unfold invertedFor
    rw [h]
  rw [hd]
  constructor
  · rw [List.length_map]
    exact (List.countP_eq_length_filter _ _).symm
  · intro hint hh
    obtain ⟨r, hr, rfl⟩ := List.mem_map.mp hh
    have hrf := List.mem_filter.mp hr
    exact ⟨rfl, rfl, rfl, r, hrf.1, of_decide_eq_true hrf.2, rfl, rfl⟩

/-- Witness for C2 at the translated diagnostic of `eC1`. -/
theorem inverted_hints_spec_witness :
    (eC1.to_lsp_diagnostic "a.js").related_information = some infosC2 ∧
      ((invertedFor "a.js" (eC1.to_lsp_diagnostic "a.js")).length =
          infosC2.countP (fun r =>
            decide (r.location.range ≠ (eC1.to_lsp_diagnostic "a.js").range)) ∧
        ∀ hint ∈ invertedFor "a.js" (eC1.to_lsp_diagnostic "a.js"),
          hint.diagnostic.severity = some DiagnosticSeverity.hint ∧
          hint.fixed_content = none ∧
          hint.diagnostic.related_information =
            some [{ location := { uri := "a.js"
                                , range := (eC1.to_lsp_diagnostic "a.js").range }
                  , message := "original diagnostic" }] ∧
          ∃ r ∈ infosC2, r.location.range ≠ (eC1.to_lsp_diagnostic "a.js").range ∧
            hint.diagnostic.range = r.location.range ∧
            hint.diagnostic.message = r.message) :=
  ⟨by decide, inverted_hints_spec "a.js" (eC1.to_lsp_diagnostic "a.js") infosC2 (by decide)⟩

/-! ### Rope line-index lemmas -/

/-- If the head line start is at most the offset, `lineIdxOf` picks a
line whose start exists and is at most the offset. -/
theorem lineIdx_get (l : List Nat) (a offset : Nat) (ha : a ≤ offset) :
    ∃ v, (a :: l)[lineIdxOf offset (a :: l)]? = some v ∧ v ≤ offset := by
  induction l generalizing a with
  | nil => exact ⟨a, by simp [lineIdxOf], ha⟩
  | cons b l ih =>
    by_cases hb : offset < b
    · refine ⟨a, ?_, ha⟩
      simp [lineIdxOf, hb]
    · obtain ⟨v, hv1, hv2⟩ := ih b (by omega)
      refine ⟨v, ?_, hv2⟩
      have hidx : lineIdxOf offset (a :: b :: l) = lineIdxOf offset (b :: l) + 1 := by
        simp [lineIdxOf, hb]
      rw [hidx, List.getElem?_cons_succ]
      exact hv1

theorem lineStartsAux_length_le (s : List Char) :
    ∀ i, (lineStartsAux s i).length ≤ s.length := by
  induction s with
  | nil => intro i; simp [lineStartsAux]
  | cons c rest ih =>
    intro i
    unfold lineStartsAux
    split
    · simpa using ih (i + 1)
    · have := ih (i + 1)
      simp only [List.length_cons]
      omega

/-- The line chosen by `lineIdxOf` over the full line-start index always
exists and starts at or before the offset. -/
theorem lineStarts_get_le (s : List Char) (offset : Nat) :
    ∃ v, (lineStarts s)[lineIdxOf offset (lineStarts s)]? = some v ∧
      v ≤ offset :=
  lineIdx_get (lineStartsAux s 0) 0 offset (Nat.zero_le _)

/-- C4: for an offset out of range for the source text, the
offset-to-position mapping returns no position (rather than raising),
the label translation substitutes the default (0,0) position for both
ends of that label, and the translation of the whole finding still
succeeds (given the finding has a label at all). -/
theorem offset_out_of_range_recovery (text : List Char) (l : LabeledSpan)
    (error : Err) (fc : Option FixedContent)
    (hoff : text.length < l.offset) (hlabels : error.labels ≠ []) :
    offset_to_position l.offset text = none ∧
      (mapLabel text l).start_pos = ⟨0, 0⟩ ∧
      (mapLabel text l).end_pos = ⟨0, 0⟩ ∧
      (ErrorWithPosition.new error text fc).isSome = true := by
  have h1 : offset_to_position l.offset text = none := by
    unfold offset_to_position
    simp [hoff]
  have h2 : offset_to_position (l.offset + l.len) text = none := by
    unfold offset_to_position
    have hlt : text.length < l.offset + l.len := by omega
    simp [hlt]
  have h3 : (ErrorWithPosition.new error text fc).isSome = true := by
    simp only [ErrorWithPosition.new]
    cases hm : error.labels.map (mapLabel text) with
    | nil => exact absurd (List.map_eq_nil_iff.mp hm) hlabels
    | cons x xs => simp [hm]
  exact ⟨h1, by simp [mapLabel, h1], by simp [mapLabel, h2], h3⟩

/-- Witness for C4: a label at offset 5 of the empty text. -/
theorem offset_out_of_range_recovery_witness :
    (([] : List Char).length < spanC4.offset ∧ errC4.labels ≠ []) ∧
      (offset_to_position spanC4.offset [] = none ∧
        (mapLabel [] spanC4).start_pos = ⟨0, 0⟩ ∧
        (mapLabel [] spanC4).end_pos = ⟨0, 0⟩ ∧
        (ErrorWithPosition.new errC4 [] none).isSome = true) :=
  ⟨⟨by decide, by decide⟩,
   offset_out_of_range_recovery [] spanC4 errC4 none (by decide) (by decide)⟩

/-- C5 counterexample: at the in-bounds offset `2 ^ 32` of a
`2 ^ 32 + 1`-character single-line text, the mapping returns
(line 0, column 0) because of the `as u32` truncation, and
line start plus column is `0`, not the original offset. -/
theorem offset_to_position_truncation_cex :
    2 ^ 32 ≤ textHuge.length ∧
      offset_to_position (2 ^ 32) textHuge = some ⟨0, 0⟩ ∧
      (lineStarts textHuge)[0]? = some 0 ∧
      (0 : Nat) + 0 ≠ 2 ^ 32 := by
  have haux : ∀ n i, lineStartsAux (List.replicate n 'a') i = [] := by
    intro n
    induction n with
    | zero => intro i; rfl
    | succ n ih =>
      intro i
      rw [List.replicate_succ]
      unfold lineStartsAux
      rw [if_neg (by decide)]
      exact ih (i + 1)
  have hstarts : lineStarts textHuge = [0] := by
    unfold lineStarts textHuge
    rw [haux]
  have hlen : textHuge.length = 2 ^ 32 + 1 := by
    unfold textHuge
    exact List.length_replicate _ _
  refine ⟨by omega, ?_, by rw [hstarts]; simp, by norm_num⟩
  unfold offset_to_position
  rw [if_neg (by omega)]
  simp only [hstarts]
  decide

/-- C5 (amended): for every in-bounds offset into a source text shorter
than `2 ^ 32` characters, the mapping is exact: the starting offset of
the returned line plus the returned column recovers the original
offset. -/
theorem offset_to_position_exact (source_text : List Char) (offset : Nat)
    (hin : offset ≤ source_text.length) (hsize : source_text.length < 2 ^ 32) :
    ∃ line column first_char_of_line,
      offset_to_position offset source_text = some ⟨line, column⟩ ∧
      (lineStarts source_text)[line]? = some first_char_of_line ∧
      first_char_of_line + column = offset := by
  obtain ⟨v, hv1, hv2⟩ := lineStarts_get_le source_text offset
  have hlt : lineIdxOf offset (lineStarts source_text) <
      (lineStarts source_text).length := by
    by_contra hge
    rw [List.getElem?_eq_none (by omega)] at hv1
    simp at hv1
  have hlen : (lineStarts source_text).length ≤ source_text.length + 1 := by
    have := lineStartsAux_length_le source_text 0
    simp only [lineStarts, List.length_cons]
    omega
  have hline_lt : lineIdxOf offset (lineStarts source_text) < 2 ^ 32 := by omega
  have hcol_lt : offset - v < 2 ^ 32 := by omega
  refine ⟨lineIdxOf offset (lineStarts source_text), offset - v, v, ?_, hv1, by omega⟩
  unfold offset_to_position
  rw [if_neg (by omega)]
  simp only [hv1]
  rw [Nat.mod_eq_of_lt hline_lt, Nat.mod_eq_of_lt hcol_lt]

/-- Witness for C5 at offset 2 of `x\ny`. -/
theorem offset_to_position_exact_witness :
    (2 ≤ textC5.length ∧ textC5.length < 2 ^ 32) ∧
      (∃ line column first_char_of_line,
        offset_to_position 2 textC5 = some ⟨line, column⟩ ∧
        (lineStarts textC5)[line]? = some first_char_of_line ∧
        first_char_of_line + column = 2) :=
  ⟨⟨by decide, by decide⟩,
   offset_to_position_exact textC5 2 (by decide) (by decide)⟩

/-! ### Wrapping lemmas -/

theorem new_isSome (error : Err) (text : List Char) (fc : Option FixedContent)
    (h : error.labels ≠ []) :
    (ErrorWithPosition.new error text fc).isSome = true := by
  simp only [ErrorWithPosition.new]
  cases hm : error.labels.map (mapLabel text) with
  | nil => exact absurd (List.map_eq_nil_iff.mp hm) h
  | cons x xs => simp [hm]

theorem wrapAll_some_spec (text : List Char) (l : List ErrorReport)
    (res : List ErrorWithPosition) (h : wrapAll text l = some res) :
    res.map (fun e => e.miette_err) = l.map (fun r => r.error) ∧
      res.map (fun e => e.fixed_content) = l.map (fun r => r.fixed_content) := by
  induction l generalizing res with
  | nil =>
    simp only [wrapAll, Option.some.injEq] at h
    subst h
    simp
  | cons r rest ih =>
    unfold wrapAll at h
    cases hn : ErrorWithPosition.new r.error text r.fixed_content with
    | none => rw [hn] at h; simp at h
    | some e =>
      cases hw : wrapAll text rest with
      | none => rw [hn, hw] at h; simp at h
      | some es =>
        rw [hn, hw] at h
        simp only [Option.some.injEq] at h
        subst h
        obtain ⟨h1, h2⟩ := ih es hw
        obtain ⟨he1, he2, -, -⟩ := new_some_spec hn
        simp [h1, h2, he1, he2]

theorem wrapAll_isSome (text : List Char) (l : List ErrorReport)
    (h : ∀ r ∈ l, r.error.labels ≠ []) :
    ∃ res, wrapAll text l = some res := by
  induction l with
  | nil => exact ⟨[], rfl⟩
  | cons r rest ih =>
    obtain ⟨res, hres⟩ := ih (fun x hx => h x (List.mem_cons_of_mem _ hx))
    have hr := h r (List.mem_cons_self _ _)
    obtain ⟨e, he⟩ :=
      Option.isSome_iff_exists.mp (new_isSome r.error text r.fixed_content hr)
    refine ⟨e :: res, ?_⟩
    unfold wrapAll
    rw [he, hres]

theorem wrapAll_length (text : List Char) {l : List ErrorReport}
    {res : List ErrorWithPosition} (h : wrapAll text l = some res) :
    res.length = l.length := by
  have hmap := (wrapAll_some_spec text l res h).1
  have := congrArg List.length hmap
  simpa using this

/-- What an `ok` outcome of `wrapResult ∘ wrap_diagnostics` contains. -/
theorem wrapResult_eq_ok {path : PathModel} {t : List Char}
    {reports : List ErrorReport} {p : PathModel} {errs : List ErrorWithPosition}
    (h : wrapResult (wrap_diagnostics path t reports) = .ok (p, errs)) :
    p = path ∧ wrapAll t reports = some errs := by
  unfold wrap_diagnostics at h
  cases hw : wrapAll t reports with
  | none => rw [hw] at h; simp [wrapResult] at h
  | some res =>
    rw [hw] at h
    simp only [Option.map_some', wrapResult, LintResult.ok.injEq, Prod.mk.injEq] at h
    exact ⟨h.1.symm, by rw [h.2]⟩

/-- C6: when the parse of a supported file yields at least one error,
`lint_path` returns exactly those parse errors as the findings, each
with an absent fix, and the semantic build, the plugin and the rule
engine do not run. -/
theorem parse_errors_short_circuit (m : FileModel) (t : List Char)
    (hsrc : get_source_type_and_text m = some t)
    (hpe : m.parseErrors ≠ [])
    (hlab : ∀ e ∈ m.parseErrors, e.labels ≠ []) :
    ∃ errs, lint_path m = (.ok (m.path, errs), ⟨false, false, false⟩) ∧
      errs.map (fun e => e.miette_err) = m.parseErrors ∧
      ∀ x ∈ errs, x.fixed_content = none := by
  have hl : ∀ r ∈ m.parseErrors.map (fun e => (⟨e, none⟩ : ErrorReport)),
      r.error.labels ≠ [] := by
    intro r hr
    obtain ⟨e, he, rfl⟩ := List.mem_map.mp hr
    exact hlab e he
  obtain ⟨res, hres⟩ := wrapAll_isSome t _ hl
  obtain ⟨h1, h2⟩ := wrapAll_some_spec t _ res hres
  refine ⟨res, ?_, ?_, ?_⟩
  · unfold lint_path
    simp only [hsrc]
    rw [if_pos hpe]
    unfold wrap_diagnostics
    rw [hres]
    rfl
  · rw [h1]
    simp [List.map_map]
    exact List.map_id _
  · intro x hx
    have hmem : x.fixed_content ∈ res.map (fun e => e.fixed_content) :=
      List.mem_map_of_mem _ hx
    rw [h2, List.map_map, List.mem_map] at hmem
    obtain ⟨a, -, hxe⟩ := hmem
    exact hxe.symm

/-- Witness for C6 at `fileC6` (one parse error at offset 10 of a
three-line file). -/
theorem parse_errors_short_circuit_witness :
    (get_source_type_and_text fileC6 = some textC6 ∧ fileC6.parseErrors ≠ []) ∧
      (∃ errs, lint_path fileC6 = (.ok (fileC6.path, errs), ⟨false, false, false⟩) ∧
        errs.map (fun e => e.miette_err) = fileC6.parseErrors ∧
        ∀ x ∈ errs, x.fixed_content = none) :=
  ⟨⟨by decide, by decide⟩,
   parse_errors_short_circuit fileC6 textC6 (by decide) (by decide) (by decide)⟩

/-! ### Whole-project scan lemmas -/

theorem wrap_ok_ne_nil {α : Type} {t : List Char} {X : List α}
    {f : α → ErrorReport} {errs : List ErrorWithPosition}
    (hwa : wrapAll t (X.map f) = some errs) (hX : X ≠ []) : errs ≠ [] := by
  intro hnil
  have hmap := (wrapAll_some_spec t _ _ hwa).1
  rw [hnil] at hmap
  exact hX (List.map_eq_nil_iff.mp (List.map_eq_nil_iff.mp hmap.symm))

/-- Every `Some` result of `lint_path` is keyed by the file's own path
and carries a nonempty findings list. -/
theorem lint_path_ok_ne_nil {m : FileModel} {p : PathModel}
    {errs : List ErrorWithPosition}
    (h : (lint_path m).1 = .ok (p, errs)) : p = m.path ∧ errs ≠ [] := by
  unfold lint_path at h
  cases hsrc : get_source_type_and_text m with
  | none => simp [hsrc] at h
  | some t =>
    simp only [hsrc] at h
    split at h
    · rename_i hpe
      obtain ⟨hp, hwa⟩ := wrapResult_eq_ok h
      exact ⟨hp, wrap_ok_ne_nil hwa hpe⟩
    · split at h
      · rename_i hpe hse
        obtain ⟨hp, hwa⟩ := wrapResult_eq_ok h
        exact ⟨hp, wrap_ok_ne_nil hwa hse⟩
      · split at h
        · simp at h
        · split at h
          · simp at h
          · split at h
            · rename_i h1 h2 h3 hlr hfix
              obtain ⟨hp, hwa⟩ := wrapResult_eq_ok h
              exact ⟨hp, wrap_ok_ne_nil hwa hlr⟩
            · rename_i h1 h2 h3 hlr hfix
              obtain ⟨hp, hwa⟩ := wrapResult_eq_ok h
              exact ⟨hp, wrap_ok_ne_nil hwa hlr⟩

theorem length_filterMap_eq_countP {α β : Type} (f : α → Option β) (l : List α) :
    (l.filterMap f).length = l.countP (fun a => (f a).isSome) := by
  induction l with
  | nil => rfl
  | cons a l ih =>
    cases hf : f a with
    | none => simp [List.filterMap_cons, hf, List.countP_cons, ih]
    | some b => simp [List.filterMap_cons, hf, List.countP_cons, ih]

theorem LintResult.toOption_eq_some {r : LintResult}
    {pr : PathModel × List ErrorWithPosition} :
    r.toOption = some pr ↔ r = .ok pr := by
  cases r <;> simp [LintResult.toOption]

/-- C7: the whole-project scan result contains no entry with an empty
diagnostic list, and the number of entries equals the number of files
whose pipeline produced findings. -/
theorem run_full_no_empty_entries (files : List FileModel)
    (out : List (PathModel × List DiagnosticReport))
    (h : run_full files = some out) :
    (∀ entry ∈ out, entry.2 ≠ []) ∧
      out.length = files.countP (fun m => ((lint_path m).1).toOption.isSome) := by
  unfold run_full at h
  cases hp : process_paths files with
  | none => rw [hp] at h; simp at h
  | some entries =>
    rw [hp] at h
    simp only [Option.map_some', Option.some.injEq] at h
    subst h
    unfold process_paths at hp
    split at hp
    · simp at hp
    · simp only [Option.some.injEq] at hp
      subst hp
      constructor
      · intro entry hentry
        unfold process_diagnostics at hentry
        rw [List.mem_map] at hentry
        obtain ⟨pe, hpe, rfl⟩ := hentry
        rw [List.mem_filterMap] at hpe
        obtain ⟨m, hm, hden⟩ := hpe
        have hok := LintResult.toOption_eq_some.mp hden
        obtain ⟨-, hne⟩ := lint_path_ok_ne_nil hok
        simp only [ne_eq, List.map_eq_nil_iff]
        exact hne
      · unfold process_diagnostics
        rw [List.length_map]
        exact length_filterMap_eq_countP _ _

/-- Witness for C7: a one-file project whose single file has findings. -/
theorem run_full_no_empty_entries_witness :
    run_full [fileC6] = some outC7 ∧
      ((∀ entry ∈ outC7, entry.2 ≠ []) ∧
        outC7.length = [fileC6].countP (fun m => ((lint_path m).1).toOption.isSome)) :=
  ⟨by decide, run_full_no_empty_entries [fileC6] outC7 (by decide)⟩

/-- A translated diagnostic's severity is always error or warning,
never hint. -/
theorem to_lsp_diagnostic_severity (e : ErrorWithPosition) (path : String) :
    (e.to_lsp_diagnostic path).severity = some DiagnosticSeverity.error ∨
      (e.to_lsp_diagnostic path).severity = some DiagnosticSeverity.warning := by
  cases h : e.miette_err.severity with
  | none => right; simp [ErrorWithPosition.to_lsp_diagnostic, h]
  | some s =>
    cases s with
    | advice => right; simp [ErrorWithPosition.to_lsp_diagnostic, h]
    | warning => right; simp [ErrorWithPosition.to_lsp_diagnostic, h]
    | error => left; simp [ErrorWithPosition.to_lsp_diagnostic, h]

/-- C3 counterexample: the whole-project scan of `fileC3` emits only
the primary diagnostic, although an inverted hint is derivable from its
related information, so the entry's list is not the primary diagnostics
followed by their inverted hints. -/
theorem run_full_no_inverted_hints_cex :
    run_full [fileC3] = some [(⟨"b.js", some "js"⟩, [reportC3])] ∧
      invertedFor "b.js" reportC3.diagnostic ≠ [] ∧
      [reportC3] ≠
        [reportC3] ++
          [reportC3].flatMap (fun d => invertedFor "b.js" d.diagnostic) := by
  refine ⟨by decide, by decide, by decide⟩

/-- C3 (amended): every file entry of the whole-project scan consists
exactly of that file's primary diagnostics, each at error or warning
severity — never hint; no inverted hints are appended there (they are
synthesized only by the single-file entry point). -/
theorem run_full_entries_primary_only (files : List FileModel)
    (out : List (PathModel × List DiagnosticReport))
    (h : run_full files = some out) :
    ∀ entry ∈ out,
      (∃ m ∈ files, ∃ errs, (lint_path m).1 = .ok (entry.1, errs) ∧
        entry.2 = errs.map (fun e => e.into_diagnostic_report entry.1.name)) ∧
      ∀ d ∈ entry.2,
        d.diagnostic.severity = some DiagnosticSeverity.error ∨
          d.diagnostic.severity = some DiagnosticSeverity.warning := by
  unfold run_full at h
  cases hp : process_paths files with
  | none => rw [hp] at h; simp at h
  | some entries =>
    rw [hp] at h
    simp only [Option.map_some', Option.some.injEq] at h
    subst h
    unfold process_paths at hp
    split at hp
    · simp at hp
    · simp only [Option.some.injEq] at hp
      subst hp
      intro entry hentry
      unfold process_diagnostics at hentry
      rw [List.mem_map] at hentry
      obtain ⟨pe, hpe, rfl⟩ := hentry
      rw [List.mem_filterMap] at hpe
      obtain ⟨m, hm, hden⟩ := hpe
      have hok := LintResult.toOption_eq_some.mp hden
      constructor
      · exact ⟨m, hm, pe.2, hok, rfl⟩
      · intro d hd
        rw [List.mem_map] at hd
        obtain ⟨e, -, rfl⟩ := hd
        exact to_lsp_diagnostic_severity e pe.1.name

/-- Witness for the amended C3 at the one-file project `fileC3`. -/
theorem run_full_entries_primary_only_witness :
    run_full [fileC3] = some [(⟨"b.js", some "js"⟩, [reportC3])] ∧
      ∀ entry ∈ [((⟨"b.js", some "js"⟩ : PathModel), [reportC3])],
        (∃ m ∈ [fileC3], ∃ errs, (lint_path m).1 = .ok (entry.1, errs) ∧
          entry.2 = errs.map (fun e => e.into_diagnostic_report entry.1.name)) ∧
        ∀ d ∈ entry.2,
          d.diagnostic.severity = some DiagnosticSeverity.error ∨
            d.diagnostic.severity = some DiagnosticSeverity.warning :=
  ⟨by decide,
   run_full_entries_primary_only [fileC3] [(⟨"b.js", some "js"⟩, [reportC3])] (by decide)⟩

/-! ### Single-file entry point lemmas -/

theorem is_wanted_ext_iff (p : PathModel) :
    is_wanted_ext p = true ↔ ∃ e, p.ext = some e ∧ e ∈ get_extensions := by
  unfold is_wanted_ext
  cases hext : p.ext with
  | none => simp
  | some e => simp [List.contains]

theorem get_source_of_wanted (m : FileModel) (h : is_wanted_ext m.path = true) :
    get_source_type_and_text m = some m.sourceText := by
  unfold is_wanted_ext at h
  cases hext : m.path.ext with
  | none => rw [hext] at h; simp at h
  | some e =>
    rw [hext] at h
    have hmem : e ∈ get_extensions := by simpa [List.contains] using h
    unfold get_source_type_and_text
    simp only [hext]
    by_cases hv : e ∈ validExtensions
    · rw [if_pos]
      simpa [List.contains] using hv
    · have hvue : e = "vue" := by
        unfold get_extensions at hmem
        rw [List.mem_append] at hmem
        rcases hmem with hm | hm
        · exact absurd hm hv
        · simpa [loaderExtensions] using hm
      rw [if_neg]
      · simp [hvue]
      · simpa [List.contains] using hv

/-- Under the no-panic precondition, `lint_path` never panics. -/
theorem lint_path_no_panic (m : FileModel) (hwf : wellFormed m) :
    (lint_path m).1 ≠ .panicked := by
  obtain ⟨h1, h2, h3, h4⟩ := hwf
  unfold lint_path
  cases hsrc : get_source_type_and_text m with
  | none => simp [hsrc]
  | some t =>
    simp only [hsrc]
    by_cases hpe : m.parseErrors ≠ []
    · rw [if_pos hpe]
      have hl : ∀ r ∈ m.parseErrors.map (fun e => (⟨e, none⟩ : ErrorReport)),
          r.error.labels ≠ [] := by
        intro r hr
        obtain ⟨e, he, rfl⟩ := List.mem_map.mp hr
        exact h1 e he
      obtain ⟨res, hres⟩ := wrapAll_isSome t _ hl
      unfold wrap_diagnostics
      rw [hres]
      simp [wrapResult]
    · rw [if_neg hpe]
      by_cases hse : m.semanticErrors ≠ []
      · rw [if_pos hse]
        have hl : ∀ r ∈ m.semanticErrors.map (fun e => (⟨e, none⟩ : ErrorReport)),
            r.error.labels ≠ [] := by
          intro r hr
          obtain ⟨e, he, rfl⟩ := List.mem_map.mp hr
          exact h2 e he
        obtain ⟨res, hres⟩ := wrapAll_isSome t _ hl
        unfold wrap_diagnostics
        rw [hres]
        simp [wrapResult]
      · rw [if_neg hse]
        have hplug : ¬((m.pluginConfigured && !m.pluginOk) = true) := by
          cases hc : m.pluginConfigured
          · simp
          · simp [h4 hc]
        rw [if_neg hplug]
        by_cases hlr : m.lintResult = []
        · rw [if_pos hlr]
          simp
        · rw [if_neg hlr]
          by_cases hfix : m.fixMode = true
          · rw [if_pos hfix]
            have hl : ∀ r ∈ m.lintResult.map (fun msg =>
                ({ error := msg.error
                 , fixed_content := msg.fix.map (fun f =>
                     { code := f.content
                     , range := { start := (offset_to_position f.start t).getD ⟨0, 0⟩
                                , stop := (offset_to_position f.stop t).getD ⟨0, 0⟩ } }) }
                  : ErrorReport)), r.error.labels ≠ [] := by
              intro r hr
              obtain ⟨msg, hm, rfl⟩ := List.mem_map.mp hr
              exact h3 msg hm
            obtain ⟨res, hres⟩ := wrapAll_isSome t _ hl
            unfold wrap_diagnostics
            rw [hres]
            simp [wrapResult]
          · rw [if_neg hfix]
            have hl : ∀ r ∈ m.lintResult.map (fun msg => (⟨msg.error, none⟩ : ErrorReport)),
                r.error.labels ≠ [] := by
              intro r hr
              obtain ⟨msg, hm, rfl⟩ := List.mem_map.mp hr
              exact h3 msg hm
            obtain ⟨res, hres⟩ := wrapAll_isSome t _ hl
            unfold wrap_diagnostics
            rw [hres]
            simp [wrapResult]

/-- A supported file on which every stage is clean skips with the
`None` return (zero findings). -/
theorem lint_path_skip (m : FileModel)
    (hsrc : get_source_type_and_text m = some m.sourceText)
    (h1 : m.parseErrors = []) (h2 : m.semanticErrors = [])
    (h4 : m.pluginConfigured = true → m.pluginOk = true)
    (h3 : m.lintResult = []) :
    (lint_path m).1 = .skip := by
  unfold lint_path
  simp only [hsrc]
  rw [if_neg (by simp [h1])]
  rw [if_neg (by simp [h2])]
  rw [if_neg (show ¬((m.pluginConfigured && !m.pluginOk) = true) from by
    cases hc : m.pluginConfigured
    · simp
    · simp [h4 hc])]
  rw [if_pos h3]

/-- C8: the single-file entry point returns the absent sentinel exactly
when the path's extension is outside the accepted set (native dialect
extensions plus the loader extension); for an accepted extension it
returns a present report list, which is empty when analysis yields zero
findings. -/
theorem run_single_sentinel_iff_ext (m : FileModel) (hwf : wellFormed m) :
    (run_single m = SingleOutcome.none ↔
        ¬ ∃ e, m.path.ext = some e ∧ e ∈ get_extensions) ∧
      ((∃ e, m.path.ext = some e ∧ e ∈ get_extensions) →
        ∃ l, run_single m = SingleOutcome.ok l) ∧
      ((∃ e, m.path.ext = some e ∧ e ∈ get_extensions) →
        m.parseErrors = [] → m.semanticErrors = [] → m.lintResult = [] →
        run_single m = SingleOutcome.ok []) := by
  have hnp := lint_path_no_panic m hwf
  by_cases hw : is_wanted_ext m.path = true
  · have hext := (is_wanted_ext_iff m.path).mp hw
    refine ⟨?_, ?_, ?_⟩
    · unfold run_single
      rw [if_pos hw]
      cases hlp : (lint_path m).1 with
      | panicked => exact absurd hlp hnp
      | skip =>
        simp only [hlp]
        exact iff_of_false (by simp) (not_not_intro hext)
      | ok pr =>
        obtain ⟨p, errors⟩ := pr
        simp only [hlp]
        exact iff_of_false (by simp) (not_not_intro hext)
    · intro _
      unfold run_single
      rw [if_pos hw]
      cases hlp : (lint_path m).1 with
      | panicked => exact absurd hlp hnp
      | skip =>
        simp only [hlp]
        exact ⟨[], rfl⟩
      | ok pr =>
        obtain ⟨p, errors⟩ := pr
        simp only [hlp]
        exact ⟨_, rfl⟩
    · intro _ hp1 hp2 hp3
      have hskip : (lint_path m).1 = .skip :=
        lint_path_skip m (get_source_of_wanted m hw) hp1 hp2 hwf.2.2.2 hp3
      unfold run_single
      rw [if_pos hw]
      simp only [hskip]
  · have hne : ¬∃ e, m.path.ext = some e ∧ e ∈ get_extensions := by
      intro hex
      exact hw ((is_wanted_ext_iff m.path).mpr hex)
    have hrs : run_single m = SingleOutcome.none := by
      unfold run_single
      rw [if_neg hw]
    exact ⟨iff_of_true hrs hne,
           fun hex => absurd hex hne,
           fun hex => absurd hex hne⟩

/-- Witness for C8 at `fileC6`, whose `js` extension is accepted. -/
theorem run_single_sentinel_iff_ext_witness :
    wellFormed fileC6 ∧
      ((run_single fileC6 = SingleOutcome.none ↔
          ¬ ∃ e, fileC6.path.ext = some e ∧ e ∈ get_extensions) ∧
        ((∃ e, fileC6.path.ext = some e ∧ e ∈ get_extensions) →
          ∃ l, run_single fileC6 = SingleOutcome.ok l) ∧
        ((∃ e, fileC6.path.ext = some e ∧ e ∈ get_extensions) →
          fileC6.parseErrors = [] → fileC6.semanticErrors = [] →
          fileC6.lintResult = [] →
          run_single fileC6 = SingleOutcome.ok [])) :=
  ⟨by decide, run_single_sentinel_iff_ext fileC6 (by decide)⟩
